import Mathlib

/-!
Verification of the controller-definitions core of the stimulus language
server: the alias rewrite transaction of `Service`
(prepareIndexFileForParsing / restoreIndexFiles / init / refresh) and the
controller classifier of `ControllerDefinitionsRequest`
(src/server/src/requests/controller_definitions.ts, src/server/src/service.ts).

The rewrite applied by `prepareIndexFileForParsing` is two global regex
replacements over the file text:

  import\s+(?:(\w+)|(?:\x7b([^\x7d]+)\x7d))\s+from\s+["']controllers\/([^"']+)["']   (global)
  import\s+(?:(\w+)|(?:\x7b([^\x7d]+)\x7d))\s+from\s+["']\/controllers\/([^"']+)["'] (global)

each replaced by the template:  import importPart from "./controllerPath".
Every character class of those patterns is disjoint from the literal that
follows it (word characters from whitespace, the non-brace class from the
closing brace, the non-quote class from the quote class, whitespace from the
letters of `from`), so the backtracking regex engine behaves exactly like a
maximal-munch scanner, which is what is embedded below: `matchImport` is the
anchored match at one position, `replaceAll` the left-to-right non-overlapping
global replacement.
-/

namespace StimulusLsp

/-- JS `\w`: ASCII letters, digits and underscore. -/
def isWordChar (c : Char) : Bool := c.isAlphanum || c == '_'

/-- JS `\s` (the forms that occur in source text): space, tab, newline,
carriage return, vertical tab, form feed. -/
def isJsSpace (c : Char) : Bool :=
  c == ' ' || c == '\t' || c == '\n' || c == '\r' || c == '\x0b' || c == '\x0c'

/-- The quote class `["']`. -/
def isQuote (c : Char) : Bool := c == '"' || c == '\''

/-- Strip an expected literal from the front of the input; `none` when the
input does not start with it. -/
def dropLit : List Char → List Char → Option (List Char)
  | [], cs => some cs
  | _ :: _, [] => none
  | l :: ls, c :: cs => if c = l then dropLit ls cs else none

/-- Greedy scan: the longest front segment satisfying `p`, and the rest. -/
def munch (p : Char → Bool) : List Char → List Char × List Char
  | [] => ([], [])
  | c :: cs => if p c then ((munch p cs).1.cons c, (munch p cs).2) else ([], c :: cs)

/-- `X+` for a character class: greedy scan requiring at least one character. -/
def munch1 (p : Char → Bool) (cs : List Char) : Option (List Char × List Char) :=
  if (munch p cs).1 = [] then none else some (munch p cs)

/-- The import clause of both regexes, returning the matched text (the
regex's `importPart`: the default-import identifier, or the brace list
including its braces) and the rest.  The `\w+` alternative is tried first,
but an opening brace is not a word character, so the two alternatives are
decided by the first character exactly as the regex engine decides them. -/
def matchImportClause (cs : List Char) : Option (List Char × List Char) :=
  match cs with
  | [] => none
  | c :: cs2 =>
    if c = '{' then
      match munch1 (fun x => !(x == '}')) cs2 with
      | some (inner, rest) =>
        match rest with
        | '}' :: rest2 => some ('{' :: (inner ++ ['}']), rest2)
        | _ => none
      | none => none
    else munch1 isWordChar (c :: cs2)

/-- The literal path segment after the opening quote: `controllers/` for the
first replacement, `/controllers/` for the second. -/
def aliasLit (rooted : Bool) : List Char :=
  if rooted then "/controllers/".data else "controllers/".data

/-- The replacement text:  import importPart from "./controllerPath". -/
def importReplacement (part pathPart : List Char) : List Char :=
  "import ".data ++ part ++ (" from \"./".data ++ (pathPart ++ ['"']))

/-- Anchored match of one regex at the head of `cs`: on success, the
replacement text and the input remaining after the matched region. -/
def matchImport (rooted : Bool) (cs : List Char) : Option (List Char × List Char) :=
  match dropLit "import".data cs with
  | none => none
  | some cs1 =>
    match munch1 isJsSpace cs1 with
    | none => none
    | some (_, cs2) =>
      match matchImportClause cs2 with
      | none => none
      | some (part, cs3) =>
        match munch1 isJsSpace cs3 with
        | none => none
        | some (_, cs4) =>
          match dropLit "from".data cs4 with
          | none => none
          | some cs5 =>
            match munch1 isJsSpace cs5 with
            | none => none
            | some (_, cs6) =>
              match cs6 with
              | [] => none
              | q :: cs7 =>
                if isQuote q then
                  match dropLit (aliasLit rooted) cs7 with
                  | none => none
                  | some cs8 =>
                    match munch1 (fun c => !isQuote c) cs8 with
                    | none => none
                    | some (pathPart, cs9) =>
                      match cs9 with
                      | [] => none
                      | q2 :: cs10 =>
                        if isQuote q2 then
                          some (importReplacement part pathPart, cs10)
                        else none
                else none

theorem dropLit_eq_append {l cs r : List Char} (h : dropLit l cs = some r) :
    cs = l ++ r := by
  induction l generalizing cs with
  | nil => simpa [dropLit] using h
  | cons a as ih =>
    match cs with
    | [] => simp [dropLit] at h
    | c :: cs' =>
      simp only [dropLit] at h
      split at h
      · rename_i hc
        simp [hc, ih h]
      · exact absurd h (by simp)

@[simp] theorem dropLit_append (l r : List Char) : dropLit l (l ++ r) = some r := by
  induction l with
  | nil => rfl
  | cons c cs ih => simp [dropLit, ih]

theorem munch_append_eq (p : Char → Bool) {l : List Char} (r : List Char)
    (hl : ∀ c ∈ l, p c = true) (hr : ∀ c, r.head? = some c → p c = false) :
    munch p (l ++ r) = (l, r) := by
  induction l with
  | nil =>
    match r with
    | [] => rfl
    | c :: r' => simp [munch, hr c rfl]
  | cons a as ih =>
    have ha : p a = true := hl a (by simp)
    have ih' := ih (fun c hc => hl c (by simp [hc]))
    simp [munch, ha, ih']

theorem munch_lengths (p : Char → Bool) (cs : List Char) :
    (munch p cs).1.length + (munch p cs).2.length = cs.length := by
  induction cs with
  | nil => simp [munch]
  | cons c cs ih =>
    by_cases h : p c = true
    · simp [munch, h]; omega
    · have h' : p c = false := by simpa using h
      simp [munch, h']

theorem munch_eq_append (p : Char → Bool) (cs : List Char) :
    cs = (munch p cs).1 ++ (munch p cs).2 := by
  induction cs with
  | nil => simp [munch]
  | cons c cs ih =>
    by_cases h : p c = true
    · simpa [munch, h] using ih
    · have h' : p c = false := by simpa using h
      simp [munch, h']

theorem munch1_eq_some {p : Char → Bool} {cs a r : List Char}
    (h : munch1 p cs = some (a, r)) : munch p cs = (a, r) ∧ a ≠ [] := by
  unfold munch1 at h
  split at h
  · exact absurd h (by simp)
  · rename_i hne
    obtain h' : munch p cs = (a, r) := by
      have := h
      injection this with h2
    exact ⟨h', by rw [h'] at hne; simpa using hne⟩

theorem munch1_append_eq (p : Char → Bool) {l : List Char} (r : List Char)
    (hne : l ≠ []) (hl : ∀ c ∈ l, p c = true)
    (hr : ∀ c, r.head? = some c → p c = false) :
    munch1 p (l ++ r) = some (l, r) := by
  unfold munch1
  rw [munch_append_eq p r hl hr]
  simp [hne]

theorem munch1_length {p : Char → Bool} {cs a r : List Char}
    (h : munch1 p cs = some (a, r)) : r.length < cs.length := by
  obtain ⟨hm, hne⟩ := munch1_eq_some h
  have hlen := munch_lengths p cs
  rw [hm] at hlen
  have : a.length ≠ 0 := by simpa using hne
  simp only at hlen
  omega

theorem munch1_suffix {p : Char → Bool} {cs a r : List Char}
    (h : munch1 p cs = some (a, r)) : ∃ pre, cs = pre ++ r := by
  obtain ⟨hm, -⟩ := munch1_eq_some h
  exact ⟨a, by simpa [hm] using munch_eq_append p cs⟩

theorem matchImportClause_spec {cs part rest : List Char}
    (h : matchImportClause cs = some (part, rest)) :
    rest.length < cs.length ∧ ∃ pre, cs = pre ++ rest := by
  match cs with
  | [] => exact absurd h (by simp [matchImportClause])
  | c :: cs2 =>
    simp only [matchImportClause] at h
    split at h
    · split at h
      · rename_i inner rest1 hm
        split at h
        · simp only [Option.some.injEq, Prod.mk.injEq] at h
          obtain ⟨h1, h2⟩ := h
          subst h2
          have hlen := munch1_length hm
          obtain ⟨pre1, hpre1⟩ := munch1_suffix hm
          constructor
          · simp only [List.length_cons] at hlen ⊢
            omega
          · exact ⟨c :: (pre1 ++ ['}']), by simp [hpre1]⟩
        · exact absurd h (by simp)
      · exact absurd h (by simp)
    · have hlen := munch1_length h
      obtain ⟨pre, hpre⟩ := munch1_suffix h
      exact ⟨hlen, pre, hpre⟩

/-- Whether `cs` contains, anywhere, a quote character immediately followed
by the alias path literal.  Any successful anchored match contains such an
occurrence, so content without one is left unchanged by the replacement. -/
def hasAliasRef (rooted : Bool) : List Char → Bool
  | [] => false
  | c :: rest => (isQuote c && (aliasLit rooted).isPrefixOf rest) || hasAliasRef rooted rest

theorem hasAliasRef_cons (rooted : Bool) (c : Char) (rest : List Char) :
    hasAliasRef rooted (c :: rest)
      = ((isQuote c && (aliasLit rooted).isPrefixOf rest) || hasAliasRef rooted rest) := rfl

theorem hasAliasRef_of_append (rooted : Bool) (pre : List Char) {q : Char}
    {t : List Char} (hq : isQuote q = true)
    (ht : (aliasLit rooted).isPrefixOf t = true) :
    hasAliasRef rooted (pre ++ q :: t) = true := by
  induction pre with
  | nil => simp [hasAliasRef, hq, ht]
  | cons a pre ih => simp [hasAliasRef, ih]

theorem matchImport_spec {rooted : Bool} {cs rep rest : List Char}
    (h : matchImport rooted cs = some (rep, rest)) :
    rest.length < cs.length ∧ hasAliasRef rooted cs = true := by
  unfold matchImport at h
  split at h
  · exact absurd h (by simp)
  · rename_i cs1 h1
    split at h
    · exact absurd h (by simp)
    · rename_i pr1 w1 cs2 h2
      split at h
      · exact absurd h (by simp)
      · rename_i pr2 part cs3 h3
        split at h
        · exact absurd h (by simp)
        · rename_i pr3 w2 cs4 h4
          split at h
          · exact absurd h (by simp)
          · rename_i cs5 h5
            split at h
            · exact absurd h (by simp)
            · rename_i pr4 w3 cs6 h6
              split at h
              · exact absurd h (by simp)
              · rename_i q cs7
                split at h
                · rename_i hq
                  split at h
                  · exact absurd h (by simp)
                  · rename_i cs8 h8
                    split at h
                    · exact absurd h (by simp)
                    · rename_i pr5 pathPart cs9 h9
                      split at h
                      · exact absurd h (by simp)
                      · rename_i q2 cs10
                        split at h
                        · simp only [Option.some.injEq, Prod.mk.injEq] at h
                          obtain ⟨-, h10⟩ := h
                          subst h10
                          have e1 := dropLit_eq_append h1
                          have l3 := matchImportClause_spec h3
                          have e5 := dropLit_eq_append h5
                          have e8 := dropLit_eq_append h8
                          have l9 := munch1_length h9
                          obtain ⟨s2, hs2⟩ := munch1_suffix h2
                          obtain ⟨hl3, s3, hs3⟩ := l3
                          obtain ⟨s4, hs4⟩ := munch1_suffix h4
                          obtain ⟨s6, hs6⟩ := munch1_suffix h6
                          constructor
                          · -- rest is shorter than the input
                            have hc1 : cs.length = 6 + cs1.length := by
                              rw [e1, List.length_append]
                              rfl
                            have h12 : cs1.length = s2.length + cs2.length := by
                              rw [hs2, List.length_append]
                            have h23 : cs2.length = s3.length + cs3.length := by
                              rw [hs3, List.length_append]
                            have h34 : cs3.length = s4.length + cs4.length := by
                              rw [hs4, List.length_append]
                            have hc5 : cs4.length = 4 + cs5.length := by
                              rw [e5, List.length_append]
                              rfl
                            have h56 : cs5.length = s6.length + (cs7.length + 1) := by
                              rw [hs6, List.length_append, List.length_cons]
                            have hc8 : cs7.length = (aliasLit rooted).length + cs8.length := by
                              rw [e8, List.length_append]
                            simp only [List.length_cons] at l9 ⊢
                            omega
                          · -- the quote and the alias literal are adjacent in cs
                            have hpre : (aliasLit rooted).isPrefixOf cs7 = true := by
                              rw [e8]
                              exact List.isPrefixOf_iff_prefix.mpr (List.prefix_append _ _)
                            have hmain := hasAliasRef_of_append rooted
                              ("import".data ++ (s2 ++ (s3 ++ (s4 ++ ("from".data ++ s6)))))
                              hq hpre
                            rw [e1, hs2, hs3, hs4, e5, hs6]
                            simpa [List.append_assoc] using hmain
                        · exact absurd h (by simp)
                · exact absurd h (by simp)

/-- Left-to-right global replacement, with explicit fuel so that the kernel
can evaluate it; `fuel` is an upper bound on the input length, and each step
either consumes the whole match (non-empty, since a match starts with the
literal `import`) or emits one character. -/
def replaceAllFuel (rooted : Bool) : Nat → List Char → List Char
  | _, [] => []
  | 0, cs => cs
  | fuel + 1, c :: rest =>
    match matchImport rooted (c :: rest) with
    | some (rep, after) => rep ++ replaceAllFuel rooted fuel after
    | none => c :: replaceAllFuel rooted fuel rest

/-- One global regex replacement pass, as `String.prototype.replace` with a
global regex performs it: scan left to right, replace each non-overlapping
match, resume after the replaced region. -/
def replaceAll (rooted : Bool) (cs : List Char) : List Char :=
  replaceAllFuel rooted cs.length cs

theorem replaceAllFuel_congr (rooted : Bool) (fuel fuel2 : Nat) (cs : List Char)
    (h : cs.length ≤ fuel) (h2 : cs.length ≤ fuel2) :
    replaceAllFuel rooted fuel cs = replaceAllFuel rooted fuel2 cs := by
  induction fuel generalizing fuel2 cs with
  | zero =>
    match cs with
    | [] => cases fuel2 <;> rfl
    | c :: rest => simp at h
  | succ fuel ih =>
    match cs with
    | [] => cases fuel2 <;> rfl
    | c :: rest =>
      match fuel2, h2 with
      | fuel2 + 1, h2 =>
        cases hm : matchImport rooted (c :: rest) with
        | some pr =>
          obtain ⟨rep, after⟩ := pr
          have hlen := (matchImport_spec hm).1
          simp only [List.length_cons] at h h2 hlen
          simp only [replaceAllFuel, hm]
          rw [ih fuel2 after (by omega) (by omega)]
        | none =>
          simp only [List.length_cons] at h h2
          simp only [replaceAllFuel, hm]
          rw [ih fuel2 rest (by omega) (by omega)]

theorem replaceAll_nil (rooted : Bool) : replaceAll rooted [] = [] := rfl

theorem replaceAll_of_match {rooted : Bool} {cs rep after : List Char}
    (h : matchImport rooted cs = some (rep, after)) :
    replaceAll rooted cs = rep ++ replaceAll rooted after := by
  match cs with
  | [] =>
    exact absurd h (by simp [matchImport, dropLit])
  | c :: rest =>
    have hlen := (matchImport_spec h).1
    simp only [List.length_cons] at hlen
    unfold replaceAll
    simp only [List.length_cons, replaceAllFuel, h]
    rw [replaceAllFuel_congr rooted rest.length after.length after (by omega) (by omega)]

theorem replaceAll_of_nomatch {rooted : Bool} {c : Char} {rest : List Char}
    (h : matchImport rooted (c :: rest) = none) :
    replaceAll rooted (c :: rest) = c :: replaceAll rooted rest := by
  unfold replaceAll
  simp only [List.length_cons, replaceAllFuel, h]

/-- Content without any quote-adjacent occurrence of the alias literal is a
fixed point of the replacement pass. -/
theorem replaceAll_of_no_alias {rooted : Bool} {cs : List Char}
    (h : hasAliasRef rooted cs = false) : replaceAll rooted cs = cs := by
  induction cs with
  | nil => rfl
  | cons c rest ih =>
    have hrest : hasAliasRef rooted rest = false := by
      rw [hasAliasRef_cons] at h
      exact (Bool.or_eq_false_iff.mp h).2
    cases hm : matchImport rooted (c :: rest) with
    | some pr =>
      obtain ⟨rep, after⟩ := pr
      exact absurd (matchImport_spec hm).2 (by simp [h])
    | none => rw [replaceAll_of_nomatch hm, ih hrest]

/-- The full rewrite of `prepareIndexFileForParsing`: the bare-alias
replacement pass, then the rooted-alias replacement pass. -/
def transformChars (cs : List Char) : List Char :=
  replaceAll true (replaceAll false cs)

/-- `prepareIndexFileForParsing`'s rewrite on strings. -/
def transformContent (content : String) : String :=
  String.mk (transformChars content.data)

/-! ## The rewrite-and-restore transaction state

`Service` keeps `indexFileBackups : Map<string, string>` (insertion-ordered,
as a JS `Map` is) next to the file system.  The state below carries the file
system as an association list (`fs`; a missing key is an unreadable file),
the backup map in insertion order, and a log of the `writeFile` calls that
were performed (used to state the no-op-write properties).  Write failures
during restore are modelled by a set of paths whose `writeFile` throws; the
code logs and continues. -/

/-- First-match association-list lookup (`Map.get` / `Map.has`). -/
def alookup (k : String) : List (String × String) → Option String
  | [] => none
  | e :: rest => if e.1 == k then some e.2 else alookup k rest

/-- In-place update of the first matching key, else append (`Map.set` on an
existing key keeps its position; a write to the file system replaces the
file's content). -/
def aupdate (k v : String) : List (String × String) → List (String × String)
  | [] => [(k, v)]
  | e :: rest => if e.1 == k then (k, v) :: rest else e :: aupdate k v rest

/-- The mutable state the transaction touches. -/
structure SState where
  fs : List (String × String)
  backups : List (String × String)
  writes : List (String × String)
deriving DecidableEq

/-- `fs.writeFile`, with its log entry. -/
def writeFile (st : SState) (p c : String) : SState :=
  { st with fs := aupdate p c st.fs, writes := st.writes ++ [(p, c)] }

/-- The body of `prepareIndexFileForParsing`'s loop for one candidate path:
skip silently when unreadable; back up the original only when the path is
not already backed up; rewrite; write back only when the rewrite changed the
content. -/
def prepareStep (st : SState) (p : String) : SState :=
  match alookup p st.fs with
  | none => st
  | some content =>
    let st1 := if (alookup p st.backups).isSome then st
               else { st with backups := st.backups ++ [(p, content)] }
    let t := transformContent content
    if t ≠ content then writeFile st1 p t else st1

/-- The two conventional entry-point candidates. -/
def possibleIndexPaths (root : String) : List String :=
  [root ++ "/app/javascript/controllers/index.js",
   root ++ "/app/javascript/controllers/index.ts"]

/-- `Service.prepareIndexFileForParsing`. -/
def prepareIndexFileForParsing (root : String) (st : SState) : SState :=
  (possibleIndexPaths root).foldl prepareStep st

/-- One iteration of `restoreIndexFiles`'s loop: write the backed-up
original unless the write throws (`p ∈ failSet`), in which case the error is
only logged and the loop continues. -/
def restoreStep (failSet : List String) (st : SState) (e : String × String) : SState :=
  if e.1 ∈ failSet then st else writeFile st e.1 e.2

/-- `Service.restoreIndexFiles`: restore every entry, then clear the map. -/
def restoreIndexFiles (failSet : List String) (st : SState) : SState :=
  let st1 := st.backups.foldl (restoreStep failSet) st
  { st1 with backups := [] }

/-- `Service.refresh` (controller_definitions.ts, lines 280-290): prepare,
then `project.refresh()` — which may reject — then restore.  The sequence
has no try/finally: a rejection of the analysis step propagates immediately
and `restoreIndexFiles` is never reached, so the error carries the state as
it was right after `prepare`. -/
def Service.refresh (root : String) (analyzeThrows : Bool) (failSet : List String)
    (st : SState) : Except SState SState :=
  let st1 := prepareIndexFileForParsing root st
  if analyzeThrows then Except.error st1
  else Except.ok (restoreIndexFiles failSet st1)

/-- `Service.init` (controller_definitions.ts, lines 169-204): prepare, then
`project.initialize()` / `detectAvailablePackages()` /
`analyzeAllDetectedModules()` — any of which may reject (`analyzeThrows`
covers the three) — then restore.  Like `refresh`, the sequence has no
try/finally. -/
def Service.init (root : String) (analyzeThrows : Bool) (failSet : List String)
    (st : SState) : Except SState SState :=
  let st1 := prepareIndexFileForParsing root st
  if analyzeThrows then Except.error st1
  else Except.ok (restoreIndexFiles failSet st1)

/-! ## The controller classifier

`ControllerDefinitionsRequest` is a pure function of the analyzer state
(`project.registeredControllers`, `project.controllerDefinitions`,
`project.detectedNodeModules`).  External collaborators are parameters:

* `lc` stands for `String.prototype.localeCompare` (an ECMA-402 library
  function); a comparator-based JS `Array.prototype.sort` (stable since
  ES2019) is embedded as a stable merge sort on `lc _ _ ≤ 0`;
* `imp` stands for `importStatementForController` of `../utils`. -/

/-- `vscode-languageserver`'s `Position.create`. -/
structure Position where
  line : Nat
  column : Nat
deriving DecidableEq

/-- `loc.start` of a parser node. -/
structure SourcePos where
  line : Nat
  column : Nat
deriving DecidableEq

/-- `node.loc` (optional in the parser's types). -/
structure SourceLoc where
  start : Option SourcePos
deriving DecidableEq

/-- A `ClassDeclarationNode`: only its optional location is consumed. -/
structure ClassDeclarationNode where
  loc : Option SourceLoc
deriving DecidableEq

/-- The `classDeclaration` of a definition: only its optional node is
consumed. -/
structure ClassDeclaration where
  node : Option ClassDeclarationNode
deriving DecidableEq

/-- A `stimulus-parser` `ControllerDefinition`. -/
structure ControllerDefinition where
  path : String
  guessedIdentifier : String
  classDeclaration : ClassDeclaration
deriving DecidableEq

/-- A `stimulus-parser` `RegisteredController`. -/
structure RegisteredController where
  path : String
  identifier : String
  classDeclaration : ClassDeclaration
deriving DecidableEq

/-- A detected node module with its own controller definitions. -/
structure DetectedModule where
  name : String
  controllerDefinitions : List ControllerDefinition
deriving DecidableEq

/-- The analyzer state the request reads. -/
structure Project where
  registeredControllers : List RegisteredController
  controllerDefinitions : List ControllerDefinition
  detectedNodeModules : List DetectedModule
deriving DecidableEq

/-- What `importStatementForController` returns. -/
structure ImportSuggestion where
  localName : String
  importStatement : String
deriving DecidableEq

/-- One entry of the response's controller-definition lists.  The registered
entries carry no import suggestion (the JS objects simply lack the two
fields). -/
structure ControllerDefinitionEntry where
  path : String
  identifier : String
  position : Position
  registered : Bool
  importStatement : Option String
  localName : Option String
deriving DecidableEq

/-- A named group of entries (`{ name, controllerDefinitions }`). -/
structure ControllerGroup where
  name : String
  controllerDefinitions : List ControllerDefinitionEntry
deriving DecidableEq

/-- The `unregistered` part of the response. -/
structure UnregisteredPart where
  project : ControllerGroup
  nodeModules : List ControllerGroup
deriving DecidableEq

/-- The full `ControllerDefinitionsResponse`. -/
structure ControllerDefinitionsResponse where
  registered : ControllerGroup
  unregistered : UnregisteredPart
deriving DecidableEq

/-- JS `x || 1` on an optional number: `undefined` and `0` both give 1. -/
def orFalsyOne (v : Option Nat) : Nat :=
  match v with
  | none => 1
  | some n => if n = 0 then 1 else n

/-- `positionFromNode`:
`Position.create(node?.loc?.start?.line || 1, node?.loc?.start?.column || 1)`. -/
def positionFromNode (node : Option ClassDeclarationNode) : Position :=
  { line := orFalsyOne (((node.bind (fun n => n.loc)).bind
      (fun l => l.start)).map (fun s => s.line)),
    column := orFalsyOne (((node.bind (fun n => n.loc)).bind
      (fun l => l.start)).map (fun s => s.column)) }

/-- Stable insertion of `a` in front of the first element `b` with
`le a b` (so an element is inserted before later-in-sort-order elements and
after tied earlier-input elements). -/
def insertOrd {α : Type} (le : α → α → Bool) (a : α) : List α → List α
  | [] => [a]
  | b :: bs => if le a b then a :: b :: bs else b :: insertOrd le a bs

/-- A stable comparison sort.  For a consistent comparator a stable sort's
output is unique, so this is the behaviour of JS `Array.prototype.sort`
(stable since ES2019). -/
def insertionSort {α : Type} (le : α → α → Bool) : List α → List α
  | [] => []
  | x :: xs => insertOrd le x (insertionSort le xs)

/-- A comparator-based stable sort: JS `Array.prototype.sort(cmp)` for a
consistent comparator `cmp` keyed by `key` (non-positive comparator result =
keep/put `a` before `b`). -/
def jsSortBy {α : Type} (key : α → String) (lc : String → String → Int)
    (xs : List α) : List α :=
  insertionSort (fun a b => decide (lc (key a) (key b) ≤ 0)) xs

/-- `controllerSort`: `(a, b) => a.identifier.localeCompare(b.identifier)`,
as the sort it induces. -/
def sortByIdentifier (lc : String → String → Int)
    (xs : List ControllerDefinitionEntry) : List ControllerDefinitionEntry :=
  jsSortBy (fun e => e.identifier) lc xs

/-- `mapControllerDefinition`. -/
def mapControllerDefinition (imp : ControllerDefinition → Bool → ImportSuggestion)
    (useAbsolutePath : Bool) (d : ControllerDefinition) : ControllerDefinitionEntry :=
  { path := d.path,
    identifier := d.guessedIdentifier,
    position := positionFromNode d.classDeclaration.node,
    registered := false,
    importStatement := some (ImportSuggestion.importStatement (imp d useAbsolutePath)),
    localName := some (ImportSuggestion.localName (imp d useAbsolutePath)) }

/-- `mapRegisteredController`. -/
def mapRegisteredController (r : RegisteredController) : ControllerDefinitionEntry :=
  { path := r.path,
    identifier := r.identifier,
    position := positionFromNode r.classDeclaration.node,
    registered := true,
    importStatement := none,
    localName := none }

/-- `registeredControllerPaths`. -/
def registeredControllerPaths (proj : Project) : List String :=
  proj.registeredControllers.map (fun c => c.path)

/-- `unregisteredControllerDefinitions`: the project definitions whose path
is not among the registered paths. -/
def unregisteredControllerDefinitions (proj : Project) : List ControllerDefinition :=
  proj.controllerDefinitions.filter
    (fun d => !(decide (d.path ∈ registeredControllerPaths proj)))

/-- `getRegisteredControllers`. -/
def getRegisteredControllers (proj : Project) (lc : String → String → Int) :
    List ControllerDefinitionEntry :=
  sortByIdentifier lc (proj.registeredControllers.map mapRegisteredController)

/-- `getUnregisteredControllers`. -/
def getUnregisteredControllers (proj : Project) (lc : String → String → Int)
    (imp : ControllerDefinition → Bool → ImportSuggestion) (useAbsolutePath : Bool) :
    List ControllerDefinitionEntry :=
  sortByIdentifier lc
    ((unregisteredControllerDefinitions proj).map (mapControllerDefinition imp useAbsolutePath))

/-- The fixed exclusion list: Stimulus-Use's controllers are abstract and
meant to be extended, so they are never suggested for registration. -/
def excludeList : List String := ["stimulus-use"]

/-- `getNodeModuleControllers`. -/
def getNodeModuleControllers (proj : Project) (lc : String → String → Int)
    (imp : ControllerDefinition → Bool → ImportSuggestion) (useAbsolutePath : Bool) :
    List ControllerGroup :=
  let nodeModules := (proj.detectedNodeModules.filter
      (fun m => !(decide (m.name ∈ excludeList)))).map
    (fun detectedModule => ControllerGroup.mk detectedModule.name
      (sortByIdentifier lc
        ((detectedModule.controllerDefinitions.filter
            (fun d => !(decide (d.path ∈ registeredControllerPaths proj)))).map
          (mapControllerDefinition imp useAbsolutePath))))
  jsSortBy (fun m => m.name) lc
    (nodeModules.filter (fun m => decide (0 < m.controllerDefinitions.length)))

/-- The document settings the configuration collaborator returns; the
`useAbsolutePaths` field may be absent (`undefined`). -/
structure DocumentSettings where
  useAbsolutePaths : Option Bool
deriving DecidableEq

/-- `Service.getUseAbsolutePath` (service.ts, lines 73-82): read the
settings for the project; `settings.useAbsolutePaths || false` on success,
`false` when the read throws.  The configuration read is a parameter:
`Except.error` is a throwing read. -/
def getUseAbsolutePath (read : Except String DocumentSettings) : Bool :=
  match read with
  | Except.ok s => s.useAbsolutePaths.getD false
  | Except.error _ => false

/-- The rewrite-strategy variant of `Service.getUseAbsolutePath`
(controller_definitions.ts, lines 206-210): always `false`, reading no
configuration at all. -/
def getUseAbsolutePathRewrite : Bool := false

/-- `ControllerDefinitionsRequest.handleRequest`. -/
def handleRequest (read : Except String DocumentSettings) (proj : Project)
    (lc : String → String → Int)
    (imp : ControllerDefinition → Bool → ImportSuggestion) :
    ControllerDefinitionsResponse :=
  let useAbsolutePath := getUseAbsolutePath read
  { registered :=
      { name := "project",
        controllerDefinitions := getRegisteredControllers proj lc },
    unregistered :=
      { project :=
          { name := "project",
            controllerDefinitions := getUnregisteredControllers proj lc imp useAbsolutePath },
        nodeModules := getNodeModuleControllers proj lc imp useAbsolutePath } }

/-! ## Association-list lemmas and the transaction invariants -/

theorem alookup_aupdate_self (k v : String) (l : List (String × String)) :
    alookup k (aupdate k v l) = some v := by
  induction l with
  | nil => simp [alookup, aupdate]
  | cons e rest ih =>
    by_cases h : e.1 = k
    · simp [alookup, aupdate, h]
    · simp [alookup, aupdate, h, ih]

theorem alookup_aupdate_ne {k q : String} (h : q ≠ k) (v : String)
    (l : List (String × String)) : alookup k (aupdate q v l) = alookup k l := by
  induction l with
  | nil => simp [alookup, aupdate, h]
  | cons e rest ih =>
    by_cases he : e.1 = q
    · simp [alookup, aupdate, he, h]
    · simp [alookup, aupdate, he, ih]

theorem alookup_eq_head_filter (k : String) (l : List (String × String)) :
    alookup k l = ((l.filter (fun e => e.1 == k)).head?).map (fun e => e.2) := by
  induction l with
  | nil => simp [alookup]
  | cons e rest ih =>
    by_cases h : e.1 = k
    · simp [alookup, h, List.filter_cons]
    · simp [alookup, h, List.filter_cons, ih]

theorem alookup_eq_none_iff (k : String) (l : List (String × String)) :
    alookup k l = none ↔ l.filter (fun e => e.1 == k) = [] := by
  rw [alookup_eq_head_filter]
  constructor
  · intro h
    cases hf : (l.filter (fun e => e.1 == k)) with
    | nil => rfl
    | cons a t => rw [hf] at h; simp at h
  · intro h
    rw [h]
    rfl

/-- `restoreStep` never touches the backup map. -/
theorem restoreStep_backups (failSet : List String) (st : SState) (e : String × String) :
    (restoreStep failSet st e).backups = st.backups := by
  unfold restoreStep writeFile
  split <;> rfl

theorem restore_fold_fs_of_skip (failSet : List String) (p : String)
    (hp : p ∈ failSet) (bs : List (String × String)) (st : SState) :
    alookup p ((bs.foldl (restoreStep failSet) st).fs) = alookup p st.fs := by
  induction bs generalizing st with
  | nil => rfl
  | cons e bs ih =>
    rw [List.foldl_cons, ih]
    unfold restoreStep writeFile
    split
    · rfl
    · rename_i hne
      have : e.1 ≠ p := fun he => hne (he ▸ hp)
      simp [alookup_aupdate_ne this]

theorem restore_fold_fs_of_none (failSet : List String) (p : String)
    (bs : List (String × String)) (st : SState)
    (hb : alookup p bs.reverse = none) :
    alookup p ((bs.foldl (restoreStep failSet) st).fs) = alookup p st.fs := by
  induction bs generalizing st with
  | nil => rfl
  | cons e bs ih =>
    have hb' : alookup p bs.reverse = none ∧ e.1 ≠ p := by
      rw [alookup_eq_none_iff] at hb ⊢
      rw [List.reverse_cons, List.filter_append] at hb
      have h1 := List.append_eq_nil.mp hb
      refine ⟨h1.1, fun he => ?_⟩
      have := h1.2
      simp [List.filter_cons, he] at this
    rw [List.foldl_cons, ih _ hb'.1]
    unfold restoreStep writeFile
    split
    · rfl
    · simp [alookup_aupdate_ne hb'.2]

theorem restore_fold_fs_of_some (failSet : List String) (p v : String)
    (hp : p ∉ failSet) (bs : List (String × String)) (st : SState)
    (hb : alookup p bs.reverse = some v) :
    alookup p ((bs.foldl (restoreStep failSet) st).fs) = some v := by
  induction bs generalizing st with
  | nil => simp [alookup] at hb
  | cons e bs ih =>
    rw [List.reverse_cons] at hb
    rw [List.foldl_cons]
    by_cases hbs : alookup p bs.reverse = none
    · -- the head entry is the last occurrence of p
      have he : e.1 = p ∧ e.2 = v := by
        rw [alookup_eq_head_filter, List.filter_append] at hb
        rw [alookup_eq_none_iff] at hbs
        rw [hbs, List.nil_append, List.filter_cons] at hb
        by_cases h1 : e.1 = p
        · simp [h1] at hb
          exact ⟨h1, hb⟩
        · simp [h1] at hb
      rw [restore_fold_fs_of_none failSet p bs _ hbs]
      unfold restoreStep writeFile
      rw [he.1]
      split
      · exact absurd (by assumption) hp
      · simp [← he.2, alookup_aupdate_self]
    · -- a later entry overwrites whatever the head entry wrote
      obtain ⟨w, hw⟩ := Option.ne_none_iff_exists'.mp hbs
      have : alookup p (bs.reverse ++ [e]) = some w := by
        rw [alookup_eq_head_filter, List.filter_append]
        rw [alookup_eq_head_filter] at hw
        cases hf : (bs.reverse.filter (fun x => x.1 == p)) with
        | nil => rw [hf] at hw; simp at hw
        | cons a t =>
          rw [hf] at hw
          simp at hw
          simp [hf, hw]
      rw [this] at hb
      obtain rfl : w = v := by injection hb
      exact ih _ hw

theorem restoreIndexFiles_fs (failSet : List String) (st : SState) :
    (restoreIndexFiles failSet st).fs = (st.backups.foldl (restoreStep failSet) st).fs := rfl

theorem restoreIndexFiles_backups_nil (failSet : List String) (st : SState) :
    (restoreIndexFiles failSet st).backups = [] := rfl

/-- The invariant the backup map keeps for one path `p` whose pre-transaction
content is `c`: either `p` is not backed up and the file still holds `c`, or
the backup map holds exactly one entry for `p` and it stores `c`. -/
def BackupInv (p c : String) (st : SState) : Prop :=
  (st.backups.filter (fun e => e.1 == p) = [] ∧ alookup p st.fs = some c)
  ∨ st.backups.filter (fun e => e.1 == p) = [(p, c)]

theorem prepareStep_backupInv {p c : String} {st : SState} (q : String)
    (h : BackupInv p c st) : BackupInv p c (prepareStep st q) := by
  rcases hq : alookup q st.fs with _ | content
  · simpa [prepareStep, hq] using h
  by_cases hqp : q = p
  · subst hqp
    rcases h with ⟨hf, hc⟩ | hone
    · obtain rfl : content = c := by rw [hq] at hc; injection hc
      have hnone : alookup q st.backups = none := (alookup_eq_none_iff q _).mpr hf
      right
      by_cases hw : transformContent content = content <;>
        simp [prepareStep, hq, hnone, hw, writeFile, List.filter_append, List.filter_cons, hf]
    · have hsome : (alookup q st.backups).isSome = true := by
        rw [alookup_eq_head_filter, hone]
        rfl
      right
      by_cases hw : transformContent content = content <;>
        simp [prepareStep, hq, hsome, hw, writeFile, hone]
  · have hne : ((st.backups ++ [(q, content)]).filter (fun e => e.1 == p))
        = st.backups.filter (fun e => e.1 == p) := by
      simp [List.filter_append, List.filter_cons, hqp]
    rcases h with ⟨hf, hc⟩ | hone
    · left
      refine ⟨?_, ?_⟩ <;>
        by_cases hb : (alookup q st.backups).isSome = true <;>
          by_cases hw : transformContent content = content <;>
            simp [prepareStep, hq, hb, hw, writeFile, hne, hf, hc, alookup_aupdate_ne hqp]
    · right
      by_cases hb : (alookup q st.backups).isSome = true <;>
        by_cases hw : transformContent content = content <;>
          simp [prepareStep, hq, hb, hw, writeFile, hne, hone]

theorem prepare_backupInv {p c : String} {st : SState} (root : String)
    (h : BackupInv p c st) : BackupInv p c (prepareIndexFileForParsing root st) := by
  unfold prepareIndexFileForParsing possibleIndexPaths
  exact prepareStep_backupInv _ (prepareStep_backupInv _ h)

theorem prepare_iterate_backupInv {p c : String} {st : SState} (root : String) (n : Nat)
    (h : BackupInv p c st) : BackupInv p c ((prepareIndexFileForParsing root)^[n] st) := by
  induction n with
  | zero => exact h
  | succ n ih =>
    rw [Function.iterate_succ_apply']
    exact prepare_backupInv root ih

theorem restore_of_backupInv {p c : String} {st : SState} (failSet : List String)
    (hfail : p ∉ failSet) (h : BackupInv p c st) :
    alookup p (restoreIndexFiles failSet st).fs = some c := by
  rw [restoreIndexFiles_fs]
  rcases h with ⟨hf, hc⟩ | hone
  · have hnone : alookup p st.backups.reverse = none := by
      rw [alookup_eq_none_iff, List.filter_reverse, hf]
      rfl
    rw [restore_fold_fs_of_none failSet p _ _ hnone, hc]
  · have hsome : alookup p st.backups.reverse = some c := by
      rw [alookup_eq_head_filter, List.filter_reverse, hone]
      rfl
    exact restore_fold_fs_of_some failSet p c hfail _ _ hsome

/-- C2: for any path whose content is `c` and which is not yet backed up,
any number of `prepareIndexFileForParsing` passes (each of which may rewrite
the file on disk, and all passes after the first find the path already in
the backup map) followed by `restoreIndexFiles` puts exactly `c` back on
disk: the backup taken by the first pass is never overwritten, so the oldest
known original wins and `content_after_restore = content_before_prepare`. -/
theorem restore_exact (root : String) (st : SState) (p c : String)
    (failSet : List String) (n : Nat)
    (hb : alookup p st.backups = none)
    (hf : alookup p st.fs = some c)
    (hfail : p ∉ failSet) :
    alookup p (restoreIndexFiles failSet
      ((prepareIndexFileForParsing root)^[n] st)).fs = some c := by
  have h0 : BackupInv p c st := Or.inl ⟨(alookup_eq_none_iff p _).mp hb, hf⟩
  exact restore_of_backupInv failSet hfail (prepare_iterate_backupInv root n h0)

/-- A concrete project root, entry-point path and entry-point content. -/
def demoRoot : String := "/proj"

/-- The `index.js` candidate under `demoRoot`. -/
def demoIndexPath : String := "/proj/app/javascript/controllers/index.js"

/-- Entry-point content with one bare alias import. -/
def demoContent : String := "import Hello from \"controllers/hello_controller\""

/-- The state at service start: the entry point on disk, no backups, no
writes yet. -/
def demoState : SState :=
  { fs := [(demoIndexPath, demoContent)], backups := [], writes := [] }

/-- Witness for C2 at the concrete entry point, with two prepare passes. -/
theorem restore_exact_witness :
    alookup demoIndexPath demoState.backups = none ∧
    alookup demoIndexPath demoState.fs = some demoContent ∧
    demoIndexPath ∉ ([] : List String) ∧
    alookup demoIndexPath (restoreIndexFiles []
      ((prepareIndexFileForParsing demoRoot)^[2] demoState)).fs = some demoContent :=
  ⟨by decide, by decide, by decide,
   restore_exact demoRoot demoState demoIndexPath demoContent [] 2
     (by decide) (by decide) (by decide)⟩

deriving instance DecidableEq for Except

/-- C1 (code bug): `Service.refresh` and `Service.init` sequence
prepare → analyze → restore with no try/finally, so when the analysis step
rejects, the error propagates with the rewritten content still on disk and
the backup entry still pending — `restoreIndexFiles` was never invoked (the
write log holds only the prepare write).  The last conjunct shows the
success path for contrast: restoration does happen when analysis succeeds. -/
theorem refresh_skips_restore_on_analyzer_error :
    Service.refresh demoRoot true [] demoState =
      Except.error { fs := [(demoIndexPath, transformContent demoContent)],
                     backups := [(demoIndexPath, demoContent)],
                     writes := [(demoIndexPath, transformContent demoContent)] }
    ∧ Service.init demoRoot true [] demoState =
      Except.error { fs := [(demoIndexPath, transformContent demoContent)],
                     backups := [(demoIndexPath, demoContent)],
                     writes := [(demoIndexPath, transformContent demoContent)] }
    ∧ transformContent demoContent ≠ demoContent
    ∧ Service.refresh demoRoot false [] demoState =
      Except.ok { fs := [(demoIndexPath, demoContent)],
                  backups := [],
                  writes := [(demoIndexPath, transformContent demoContent),
                             (demoIndexPath, demoContent)] } := by
  refine ⟨by decide, by decide, by decide, by decide⟩

/-- C10: `restoreIndexFiles` clears the whole backup map unconditionally;
a path whose restore write throws keeps its on-disk (rewritten) content and
its original is lost with the clear, while every other path is still
restored (the loop is not aborted by the failure). -/
theorem restore_clears_backups_even_on_write_failure (failSet : List String) (st : SState) :
    (restoreIndexFiles failSet st).backups = []
    ∧ (∀ p, p ∈ failSet → alookup p (restoreIndexFiles failSet st).fs = alookup p st.fs)
    ∧ (∀ q v, q ∉ failSet → alookup q st.backups.reverse = some v →
        alookup q (restoreIndexFiles failSet st).fs = some v) := by
  refine ⟨restoreIndexFiles_backups_nil failSet st, fun p hp => ?_, fun q v hq hv => ?_⟩
  · rw [restoreIndexFiles_fs]
    exact restore_fold_fs_of_skip failSet p hp _ _
  · rw [restoreIndexFiles_fs]
    exact restore_fold_fs_of_some failSet q v hq _ _ hv

/-- A two-file state mid-transaction: both files rewritten, both backed up. -/
def demoFailState : SState :=
  { fs := [("/a", "rewrittenA"), ("/b", "rewrittenB")],
    backups := [("/a", "origA"), ("/b", "origB")],
    writes := [] }

/-- Witness for C10: the write for `/a` throws; `/b` is still restored, the
map is cleared, and `/a` keeps its rewritten content. -/
theorem restore_clears_backups_even_on_write_failure_witness :
    (restoreIndexFiles ["/a"] demoFailState).backups = []
    ∧ alookup "/a" (restoreIndexFiles ["/a"] demoFailState).fs = alookup "/a" demoFailState.fs
    ∧ alookup "/b" (restoreIndexFiles ["/a"] demoFailState).fs = some "origB" := by
  obtain ⟨h1, h2, h3⟩ := restore_clears_backups_even_on_write_failure ["/a"] demoFailState
  exact ⟨h1, h2 "/a" (by decide), h3 "/b" "origB" (by decide) (by decide)⟩

/-! ## Stable-sort lemmas -/

theorem insertOrd_perm {α : Type} (le : α → α → Bool) (a : α) (l : List α) :
    (insertOrd le a l).Perm (a :: l) := by
  induction l with
  | nil => simp [insertOrd]
  | cons b bs ih =>
    by_cases h : le a b = true
    · simp [insertOrd, h]
    · have h' : le a b = false := by simpa using h
      simp only [insertOrd, h', Bool.false_eq_true, if_false]
      exact (ih.cons b).trans (List.Perm.swap a b bs)

theorem insertionSort_perm {α : Type} (le : α → α → Bool) (l : List α) :
    (insertionSort le l).Perm l := by
  induction l with
  | nil => simp [insertionSort]
  | cons x xs ih => exact (insertOrd_perm le x _).trans (ih.cons x)

theorem insertOrd_sorted {α : Type} {le : α → α → Bool}
    (htrans : ∀ a b c, le a b = true → le b c = true → le a c = true)
    (htotal : ∀ a b, le a b = true ∨ le b a = true)
    (a : α) {l : List α} (hl : l.Pairwise (fun x y => le x y = true)) :
    (insertOrd le a l).Pairwise (fun x y => le x y = true) := by
  induction l with
  | nil => simp [insertOrd]
  | cons b bs ih =>
    rcases List.pairwise_cons.mp hl with ⟨hb, hbs⟩
    by_cases h : le a b = true
    · simp only [insertOrd, h, if_true]
      refine List.pairwise_cons.mpr ⟨?_, hl⟩
      intro x hx
      rcases List.mem_cons.mp hx with rfl | hx2
      · exact h
      · exact htrans a b x h (hb x hx2)
    · have h' : le a b = false := by simpa using h
      have hba : le b a = true := (htotal a b).resolve_left h
      simp only [insertOrd, h', Bool.false_eq_true, if_false]
      refine List.pairwise_cons.mpr ⟨?_, ih hbs⟩
      intro x hx
      have : x = a ∨ x ∈ bs := by
        simpa using (insertOrd_perm le a bs).mem_iff.mp hx
      rcases this with rfl | hx2
      · exact hba
      · exact hb x hx2

theorem insertionSort_sorted {α : Type} {le : α → α → Bool}
    (htrans : ∀ a b c, le a b = true → le b c = true → le a c = true)
    (htotal : ∀ a b, le a b = true ∨ le b a = true) (l : List α) :
    (insertionSort le l).Pairwise (fun x y => le x y = true) := by
  induction l with
  | nil => simp [insertionSort]
  | cons x xs ih => exact insertOrd_sorted htrans htotal x ih

theorem sublist_insertOrd {α : Type} (le : α → α → Bool) (a : α) (l : List α) :
    l.Sublist (insertOrd le a l) := by
  induction l with
  | nil => simp [insertOrd]
  | cons b bs ih =>
    by_cases h : le a b = true
    · simp only [insertOrd, h, if_true]
      exact List.sublist_cons_self a (b :: bs)
    · have h' : le a b = false := by simpa using h
      simp only [insertOrd, h', Bool.false_eq_true, if_false]
      exact ih.cons₂ b

theorem pair_sublist_insertOrd {α : Type} {le : α → α → Bool} {x y : α}
    (hxy : le x y = true) {m : List α} (hy : y ∈ m) :
    [x, y].Sublist (insertOrd le x m) := by
  induction m with
  | nil => simp at hy
  | cons b bs ih =>
    by_cases h : le x b = true
    · simp only [insertOrd, h, if_true]
      exact (List.singleton_sublist.mpr hy).cons₂ x
    · have hb : b ≠ y := by
        rintro rfl
        exact absurd hxy (by simpa using h)
      have hy2 : y ∈ bs := by
        rcases List.mem_cons.mp hy with rfl | hh
        · exact absurd rfl hb
        · exact hh
      have h' : le x b = false := by simpa using h
      simp only [insertOrd, h', Bool.false_eq_true, if_false]
      exact (ih hy2).cons b

theorem pair_sublist_insertionSort {α : Type} {le : α → α → Bool} {x y : α}
    (hxy : le x y = true) {l : List α} (hsub : [x, y].Sublist l) :
    [x, y].Sublist (insertionSort le l) := by
  induction l with
  | nil => simp at hsub
  | cons z zs ih =>
    cases hsub with
    | cons _ h => exact (ih h).trans (sublist_insertOrd le z _)
    | cons₂ _ h =>
      have hy : y ∈ insertionSort le zs :=
        ((insertionSort_perm le zs).mem_iff).mpr (List.singleton_sublist.mp h)
      exact pair_sublist_insertOrd hxy hy

/-- What JS's stable comparator sort guarantees: output sorted by the
comparator (non-positive between neighbours, and, with transitivity, between
any in-order pair), a permutation of the input, and every in-comparator-order
pair of the input — tied pairs included — keeps its input order. -/
def SortedStableOutput {α : Type} (key : α → String) (lc : String → String → Int)
    (input output : List α) : Prop :=
  output.Pairwise (fun a b => lc (key a) (key b) ≤ 0)
  ∧ output.Perm input
  ∧ ∀ x y : α, lc (key x) (key y) ≤ 0 → [x, y].Sublist input → [x, y].Sublist output

theorem jsSortBy_sortedStable {α : Type} (key : α → String) (lc : String → String → Int)
    (htrans : ∀ a b c : String, lc a b ≤ 0 → lc b c ≤ 0 → lc a c ≤ 0)
    (htotal : ∀ a b : String, lc a b ≤ 0 ∨ lc b a ≤ 0)
    (xs : List α) : SortedStableOutput key lc xs (jsSortBy key lc xs) := by
  have hbt : ∀ a b c : α, decide (lc (key a) (key b) ≤ 0) = true →
      decide (lc (key b) (key c) ≤ 0) = true → decide (lc (key a) (key c) ≤ 0) = true := by
    intro a b c h1 h2
    simp only [decide_eq_true_eq] at h1 h2 ⊢
    exact htrans _ _ _ h1 h2
  have hbo : ∀ a b : α, decide (lc (key a) (key b) ≤ 0) = true
      ∨ decide (lc (key b) (key a) ≤ 0) = true := by
    intro a b
    rcases htotal (key a) (key b) with h | h
    · exact Or.inl (by simpa using h)
    · exact Or.inr (by simpa using h)
  refine ⟨?_, insertionSort_perm _ xs, ?_⟩
  · have := insertionSort_sorted hbt hbo xs
    exact this.imp (fun h => by simpa using h)
  · intro x y hxy hsub
    exact pair_sublist_insertionSort (by simpa using hxy) hsub

theorem mem_jsSortBy {α : Type} {key : α → String} {lc : String → String → Int}
    {x : α} {xs : List α} : x ∈ jsSortBy key lc xs ↔ x ∈ xs :=
  (insertionSort_perm _ xs).mem_iff

/-- C3: the classification partitions by path: no entry of the unregistered
project bucket or of any module bucket has a path in the registered path
set, and every registered-bucket entry is the image of a Registered
Controller record (so its path is in the set and it carries the registered
identifier). -/
theorem classification_partition (proj : Project) (lc : String → String → Int)
    (imp : ControllerDefinition → Bool → ImportSuggestion) (u : Bool) :
    (∀ e ∈ getUnregisteredControllers proj lc imp u,
      e.path ∉ registeredControllerPaths proj)
    ∧ (∀ m ∈ getNodeModuleControllers proj lc imp u,
        ∀ e ∈ m.controllerDefinitions, e.path ∉ registeredControllerPaths proj)
    ∧ (∀ e ∈ getRegisteredControllers proj lc,
        e.path ∈ registeredControllerPaths proj
        ∧ ∃ r ∈ proj.registeredControllers, e = mapRegisteredController r) := by
  refine ⟨?_, ?_, ?_⟩
  · intro e he
    rw [getUnregisteredControllers, sortByIdentifier, mem_jsSortBy, List.mem_map] at he
    obtain ⟨d, hd, rfl⟩ := he
    rw [unregisteredControllerDefinitions, List.mem_filter] at hd
    simpa [mapControllerDefinition] using hd.2
  · intro m hm e he
    simp only [getNodeModuleControllers] at hm
    rw [mem_jsSortBy, List.mem_filter] at hm
    obtain ⟨hm1, -⟩ := hm
    rw [List.mem_map] at hm1
    obtain ⟨dm, hdm, rfl⟩ := hm1
    simp only [] at he
    rw [sortByIdentifier, mem_jsSortBy, List.mem_map] at he
    obtain ⟨d, hd, rfl⟩ := he
    rw [List.mem_filter] at hd
    simpa [mapControllerDefinition] using hd.2
  · intro e he
    rw [getRegisteredControllers, sortByIdentifier, mem_jsSortBy, List.mem_map] at he
    obtain ⟨r, hr, rfl⟩ := he
    refine ⟨?_, r, hr, rfl⟩
    rw [registeredControllerPaths, List.mem_map]
    exact ⟨r, hr, rfl⟩

/-- C6: no group named on the exclusion list ever reaches the nodeModules
output — the module filter removes it before its definitions are even
considered. -/
theorem denylist_enforced (proj : Project) (lc : String → String → Int)
    (imp : ControllerDefinition → Bool → ImportSuggestion) (u : Bool) :
    ∀ m ∈ getNodeModuleControllers proj lc imp u,
      m.name ∉ excludeList ∧ m.name ≠ "stimulus-use" := by
  intro m hm
  simp only [getNodeModuleControllers] at hm
  rw [mem_jsSortBy, List.mem_filter] at hm
  obtain ⟨hm1, -⟩ := hm
  rw [List.mem_map] at hm1
  obtain ⟨dm, hdm, rfl⟩ := hm1
  rw [List.mem_filter] at hdm
  have hname : dm.name ∉ excludeList := by simpa using hdm.2
  refine ⟨hname, fun he => hname ?_⟩
  simp only [excludeList, List.mem_singleton]
  exact he

/-- C7: all four lists of the response are sorted ascending under the
comparator (for any transitive, total comparator, which `localeCompare`
is).  The registered list, the project-unregistered list and each module
group's list are each a permutation of their inputs with every in-order
pair — ties included — kept in stable input order (each module group is
traced back to its detected module, whose filtered, mapped definitions are
that group's sort input); the module groups themselves are sorted by module
name. -/
theorem response_sorted (proj : Project) (lc : String → String → Int)
    (imp : ControllerDefinition → Bool → ImportSuggestion) (u : Bool)
    (htrans : ∀ a b c : String, lc a b ≤ 0 → lc b c ≤ 0 → lc a c ≤ 0)
    (htotal : ∀ a b : String, lc a b ≤ 0 ∨ lc b a ≤ 0) :
    SortedStableOutput (fun e => e.identifier) lc
      (proj.registeredControllers.map mapRegisteredController)
      (getRegisteredControllers proj lc)
    ∧ SortedStableOutput (fun e => e.identifier) lc
      ((unregisteredControllerDefinitions proj).map (mapControllerDefinition imp u))
      (getUnregisteredControllers proj lc imp u)
    ∧ (∀ m ∈ getNodeModuleControllers proj lc imp u,
        ∃ dm ∈ proj.detectedNodeModules, m.name = dm.name
          ∧ SortedStableOutput (fun e => e.identifier) lc
              ((dm.controllerDefinitions.filter
                  (fun d => !(decide (d.path ∈ registeredControllerPaths proj)))).map
                (mapControllerDefinition imp u))
              m.controllerDefinitions)
    ∧ List.Pairwise (fun a b => lc a.name b.name ≤ 0)
        (getNodeModuleControllers proj lc imp u) := by
  refine ⟨jsSortBy_sortedStable _ lc htrans htotal _,
          jsSortBy_sortedStable _ lc htrans htotal _, ?_, ?_⟩
  · intro m hm
    simp only [getNodeModuleControllers] at hm
    rw [mem_jsSortBy, List.mem_filter] at hm
    obtain ⟨hm1, -⟩ := hm
    rw [List.mem_map] at hm1
    obtain ⟨dm, hdm, rfl⟩ := hm1
    rw [List.mem_filter] at hdm
    exact ⟨dm, hdm.1, rfl, jsSortBy_sortedStable _ lc htrans htotal _⟩
  · exact (jsSortBy_sortedStable _ lc htrans htotal _).1

/-- A class node whose present start location is line 5, column 0. -/
def demoNode : ClassDeclarationNode :=
  { loc := some { start := some { line := 5, column := 0 } } }

/-- A registered controller at path `a/y_controller.js`. -/
def demoReg : RegisteredController :=
  { path := "a/y_controller.js", identifier := "y", classDeclaration := { node := none } }

/-- An unregistered project definition. -/
def demoDef : ControllerDefinition :=
  { path := "a/x_controller.js", guessedIdentifier := "x",
    classDeclaration := { node := some demoNode } }

/-- A project definition sharing the registered controller's path. -/
def demoRegDef : ControllerDefinition :=
  { path := "a/y_controller.js", guessedIdentifier := "y2",
    classDeclaration := { node := none } }

/-- A module definition. -/
def demoModDef : ControllerDefinition :=
  { path := "node_modules/m/z_controller.js", guessedIdentifier := "z",
    classDeclaration := { node := none } }

/-- A surviving detected module. -/
def demoModule : DetectedModule :=
  { name := "m", controllerDefinitions := [demoModDef] }

/-- A denylisted detected module with a qualifying definition. -/
def demoExcluded : DetectedModule :=
  { name := "stimulus-use", controllerDefinitions := [demoDef] }

/-- A small analyzer state exercising every bucket. -/
def demoProject : Project :=
  { registeredControllers := [demoReg],
    controllerDefinitions := [demoDef, demoRegDef],
    detectedNodeModules := [demoExcluded, demoModule] }

/-- A concrete import-suggestion collaborator. -/
def demoImp : ControllerDefinition → Bool → ImportSuggestion :=
  fun d u =>
    { localName := d.guessedIdentifier,
      importStatement := if u then d.path else "./" ++ d.path }

/-- A concrete total transitive comparator (compare by length). -/
def demoLc : String → String → Int :=
  fun a b => (a.length : Int) - (b.length : Int)

/-- Witness for C3 at the concrete project. -/
theorem classification_partition_witness :
    (mapRegisteredController demoReg).path ∈ registeredControllerPaths demoProject
    ∧ (mapControllerDefinition demoImp false demoDef).path
        ∉ registeredControllerPaths demoProject := by
  obtain ⟨h1, -, h3⟩ := classification_partition demoProject demoLc demoImp false
  exact ⟨(h3 (mapRegisteredController demoReg) (by decide)).1,
         h1 (mapControllerDefinition demoImp false demoDef) (by decide)⟩

/-- Witness for C6: the surviving module group is not denylisted (the
denylisted module, with its qualifying definition, is absent). -/
theorem denylist_enforced_witness :
    (ControllerGroup.mk "m" [mapControllerDefinition demoImp false demoModDef]).name
      ∉ excludeList
    ∧ (ControllerGroup.mk "m" [mapControllerDefinition demoImp false demoModDef]).name
      ≠ "stimulus-use" :=
  denylist_enforced demoProject demoLc demoImp false _ (by decide)

/-- Witness for C7 at the concrete project and length comparator, with the
module-group conjunct instantiated at the concrete surviving group. -/
theorem response_sorted_witness :
    SortedStableOutput (fun e => e.identifier) demoLc
      (demoProject.registeredControllers.map mapRegisteredController)
      (getRegisteredControllers demoProject demoLc)
    ∧ (∃ dm ∈ demoProject.detectedNodeModules,
        (ControllerGroup.mk "m" [mapControllerDefinition demoImp false demoModDef]).name
          = dm.name
        ∧ SortedStableOutput (fun e => e.identifier) demoLc
            ((dm.controllerDefinitions.filter
                (fun d => !(decide (d.path ∈ registeredControllerPaths demoProject)))).map
              (mapControllerDefinition demoImp false))
            (ControllerGroup.mk "m"
              [mapControllerDefinition demoImp false demoModDef]).controllerDefinitions)
    ∧ List.Pairwise (fun a b => demoLc a.name b.name ≤ 0)
        (getNodeModuleControllers demoProject demoLc demoImp false) := by
  have h := response_sorted demoProject demoLc demoImp false
    (fun a b c h1 h2 => by simp only [demoLc] at h1 h2 ⊢; omega)
    (fun a b => by simp only [demoLc]; omega)
  exact ⟨h.1, h.2.2.1 _ (by decide), h.2.2.2⟩

/-- C8 counterexample: a node with a present start location at column 0 is
reported at column 1, not column 0 — the code's `|| 1` defaulting fires on
the falsy value 0, so "the reported position is the node's start line and
start column" fails as stated. -/
theorem positionFromNode_zero_column_cex :
    positionFromNode (some demoNode) = Position.mk 5 1
    ∧ positionFromNode (some demoNode) ≠ Position.mk 5 0 :=
  ⟨by decide, by decide⟩

/-- C8 amended: an absent node, location or start reports line 1, column 1;
a present start reports its line and column except that a zero line or
column is replaced by 1; and both response mappers report exactly this
position. -/
theorem positionFromNode_amended :
    positionFromNode none = Position.mk 1 1
    ∧ (∀ node : ClassDeclarationNode, node.loc = none →
        positionFromNode (some node) = Position.mk 1 1)
    ∧ (∀ (node : ClassDeclarationNode) (loc : SourceLoc), node.loc = some loc →
        loc.start = none → positionFromNode (some node) = Position.mk 1 1)
    ∧ (∀ l c : Nat,
        positionFromNode (some { loc := some { start := some { line := l, column := c } } })
          = Position.mk (if l = 0 then 1 else l) (if c = 0 then 1 else c))
    ∧ (∀ r : RegisteredController,
        (mapRegisteredController r).position = positionFromNode r.classDeclaration.node)
    ∧ (∀ (imp : ControllerDefinition → Bool → ImportSuggestion) (u : Bool)
        (d : ControllerDefinition),
        (mapControllerDefinition imp u d).position = positionFromNode d.classDeclaration.node) := by
  refine ⟨rfl, ?_, ?_, ?_, fun r => rfl, fun imp u d => rfl⟩
  · intro node h
    simp [positionFromNode, h, orFalsyOne]
  · intro node loc h1 h2
    simp [positionFromNode, h1, h2, orFalsyOne]
  · intro l c
    simp [positionFromNode, orFalsyOne]

/-- Witness for C8's amended statement. -/
theorem positionFromNode_amended_witness :
    positionFromNode (some { loc := none }) = Position.mk 1 1
    ∧ positionFromNode (some { loc := some { start := some { line := 7, column := 3 } } })
        = Position.mk 7 3 := by
  obtain ⟨-, h2, -, h4, -, -⟩ := positionFromNode_amended
  exact ⟨h2 { loc := none } rfl, by simpa using h4 7 3⟩

/-- C9: the handler resolves the flag through `getUseAbsolutePath`, which
returns the configured value on a successful read and `false` on a throwing
read; a failing configuration read never surfaces — the response equals the
relative-mode response.  The rewrite-strategy variant returns `false`
unconditionally. -/
theorem config_failure_defaults_relative :
    (∀ s, getUseAbsolutePath (Except.ok s) = s.useAbsolutePaths.getD false)
    ∧ (∀ e, getUseAbsolutePath (Except.error e) = false)
    ∧ (∀ (e : String) (proj : Project) (lc : String → String → Int)
        (imp : ControllerDefinition → Bool → ImportSuggestion),
        handleRequest (Except.error e) proj lc imp
          = handleRequest (Except.ok { useAbsolutePaths := some false }) proj lc imp)
    ∧ getUseAbsolutePathRewrite = false :=
  ⟨fun _ => rfl, fun _ => rfl, fun _ _ _ _ => rfl, rfl⟩

/-! ## The rewrite on single import statements -/

theorem isJsSpace_false_of_word {c : Char} (h : isWordChar c = true) :
    isJsSpace c = false := by
  by_contra hc
  have hs : isJsSpace c = true := by simpa using hc
  simp only [isJsSpace, Bool.or_eq_true, beq_iff_eq] at hs
  rcases hs with ((((h1 | h1) | h1) | h1) | h1) | h1 <;> subst h1 <;>
    exact absurd h (by decide)

theorem isQuote_false_of_word {c : Char} (h : isWordChar c = true) :
    isQuote c = false := by
  by_contra hc
  have hs : isQuote c = true := by simpa using hc
  simp only [isQuote, Bool.or_eq_true, beq_iff_eq] at hs
  rcases hs with h1 | h1 <;> subst h1 <;> exact absurd h (by decide)

theorem ne_brace_of_word {c : Char} (h : isWordChar c = true) : ¬(c = '{') :=
  fun he => absurd h (by rw [he]; decide)

theorem matchImportClause_word {i : List Char} (r : List Char) (hne : i ≠ [])
    (hw : ∀ c ∈ i, isWordChar c = true)
    (hr : ∀ c, r.head? = some c → isWordChar c = false) :
    matchImportClause (i ++ r) = some (i, r) := by
  obtain ⟨c, i2, rfl⟩ := List.exists_cons_of_ne_nil hne
  have hc : isWordChar c = true := hw c (by simp)
  have hcb : ¬(c = '{') := ne_brace_of_word hc
  rw [List.cons_append]
  simp only [matchImportClause, if_neg hcb]
  rw [← List.cons_append]
  exact munch1_append_eq isWordChar r hne hw hr

theorem matchImportClause_braces {inner : List Char} (r : List Char) (hne : inner ≠ [])
    (hinner : ∀ c ∈ inner, (c == '}') = false) :
    matchImportClause (('{' :: (inner ++ ['}'])) ++ r)
      = some ('{' :: (inner ++ ['}']), r) := by
  have hm : munch1 (fun x => !(x == '}')) (inner ++ ('}' :: r)) = some (inner, '}' :: r) :=
    munch1_append_eq _ _ hne (fun c hc => by simp [hinner c hc])
      (fun c hc => by simp at hc; subst hc; decide)
  have hshape : ('{' :: (inner ++ ['}'])) ++ r = '{' :: (inner ++ ('}' :: r)) := by
    simp
  rw [hshape]
  simp [matchImportClause, hm]

theorem munch1_single_space {r : List Char} {d : Char} {rest : List Char}
    (hr : r = d :: rest) (hd : isJsSpace d = false) :
    munch1 isJsSpace (' ' :: r) = some ([' '], r) := by
  subst hr
  have := @munch1_append_eq isJsSpace [' '] (d :: rest) (by simp)
    (fun c hc => by simp at hc; subst hc; decide)
    (fun c hc => by simp at hc; subst hc; exact hd)
  simpa using this

/-- The text after the import clause in the canonical statement
`import PART from "PREFIXpath"` (single spaces, double quotes). -/
def stmtTail (rooted : Bool) (p : List Char) : List Char :=
  ' ' :: ("from".data ++ (' ' :: ('"' :: (aliasLit rooted ++ (p ++ ['"'])))))

/-- The canonical alias import statement
`import PART from "controllers/p"` (bare) or
`import PART from "/controllers/p"` (rooted). -/
def aliasImportStmt (rooted : Bool) (part p : List Char) : List Char :=
  "import".data ++ (' ' :: (part ++ stmtTail rooted p))

theorem matchImport_stmt {rooted : Bool} {part p : List Char} {d0 : Char}
    {part2 : List Char}
    (hpart : part = d0 :: part2) (hd0 : isJsSpace d0 = false)
    (hclause : matchImportClause (part ++ stmtTail rooted p)
      = some (part, stmtTail rooted p))
    (hp : p ≠ []) (hpq : ∀ c ∈ p, isQuote c = false) :
    matchImport rooted (aliasImportStmt rooted part p)
      = some (importReplacement part p, []) := by
  have h2 : munch1 isJsSpace (' ' :: (part ++ stmtTail rooted p))
      = some ([' '], part ++ stmtTail rooted p) :=
    munch1_single_space (by rw [hpart]; rfl) hd0
  have h4 : munch1 isJsSpace (stmtTail rooted p)
      = some ([' '], "from".data ++ (' ' :: ('"' :: (aliasLit rooted ++ (p ++ ['"']))))) :=
    munch1_single_space rfl (by decide)
  have h6 : munch1 isJsSpace (' ' :: ('"' :: (aliasLit rooted ++ (p ++ ['"']))))
      = some ([' '], '"' :: (aliasLit rooted ++ (p ++ ['"']))) :=
    munch1_single_space rfl (by decide)
  have h9 : munch1 (fun c => !isQuote c) (p ++ ['"']) = some (p, ['"']) :=
    @munch1_append_eq _ p ['"'] hp (fun c hc => by simp [hpq c hc])
      (fun c hc => by simp at hc; subst hc; decide)
  have hq1 : isQuote '"' = true := by decide
  simp only [matchImport, aliasImportStmt]
  rw [dropLit_append]
  dsimp only
  rw [h2]
  dsimp only
  rw [hclause]
  dsimp only
  rw [h4]
  dsimp only
  rw [dropLit_append]
  dsimp only
  rw [h6]
  dsimp only
  rw [if_pos hq1]
  rw [dropLit_append]
  dsimp only
  rw [h9]
  dsimp only
  rw [if_pos hq1]

theorem hasAliasRef_cons_of_not_quote (rooted : Bool) {c : Char} (rest : List Char)
    (hc : isQuote c = false) :
    hasAliasRef rooted (c :: rest) = hasAliasRef rooted rest := by
  simp [hasAliasRef_cons, hc]

theorem hasAliasRef_append_quotefree (rooted : Bool) (l : List Char) {r : List Char}
    (hl : ∀ c ∈ l, isQuote c = false) :
    hasAliasRef rooted (l ++ r) = hasAliasRef rooted r := by
  induction l with
  | nil => rfl
  | cons a l ih =>
    rw [List.cons_append,
      hasAliasRef_cons_of_not_quote rooted _ (hl a (by simp)),
      ih (fun c hc => hl c (by simp [hc]))]

theorem hasAliasRef_single_dquote (rooted : Bool) : hasAliasRef rooted ['"'] = false := by
  cases rooted <;> decide

theorem bare_isPrefixOf_head {d : Char} (x : List Char) (h : ¬(d = 'c')) :
    (aliasLit false).isPrefixOf (d :: x) = false := by
  show List.isPrefixOf ('c' :: "ontrollers/".data) (d :: x) = false
  have hcd : ('c' == d) = false := by
    simpa using fun he => h he.symm
  simp [List.isPrefixOf, hcd]

theorem rooted_isPrefixOf_head {d : Char} (x : List Char) (h : ¬(d = '/')) :
    (aliasLit true).isPrefixOf (d :: x) = false := by
  show List.isPrefixOf ('/' :: "controllers/".data) (d :: x) = false
  have hcd : ('/' == d) = false := by
    simpa using fun he => h he.symm
  simp [List.isPrefixOf, hcd]

/-- The replacement text contains no alias reference: its only quotes are
the two around `./path`, followed by `.` and by nothing. -/
theorem hasAliasRef_importReplacement (rooted : Bool) {part p : List Char}
    (hpart : ∀ c ∈ part, isQuote c = false) (hp : ∀ c ∈ p, isQuote c = false) :
    hasAliasRef rooted (importReplacement part p) = false := by
  unfold importReplacement
  rw [List.append_assoc]
  rw [hasAliasRef_append_quotefree rooted _ (by decide)]
  rw [hasAliasRef_append_quotefree rooted _ hpart]
  rw [show (" from \"./".data ++ (p ++ ['"']))
      = " from ".data ++ ('"' :: ('.' :: ('/' :: (p ++ ['"'])))) from rfl]
  rw [hasAliasRef_append_quotefree rooted _ (by decide)]
  rw [hasAliasRef_cons]
  have hnp : (aliasLit rooted).isPrefixOf ('.' :: ('/' :: (p ++ ['"']))) = false := by
    cases rooted
    · exact bare_isPrefixOf_head _ (by decide)
    · exact rooted_isPrefixOf_head _ (by decide)
  rw [hnp]
  simp only [Bool.and_false, Bool.false_or]
  rw [hasAliasRef_cons_of_not_quote rooted _ (by decide),
    hasAliasRef_cons_of_not_quote rooted _ (by decide),
    hasAliasRef_append_quotefree rooted _ hp]
  exact hasAliasRef_single_dquote rooted

/-- The rooted statement contains no bare alias reference: its opening
quote is followed by `/`, not by `controllers/`. -/
theorem hasAliasRef_bare_of_rootedStmt {part p : List Char}
    (hpart : ∀ c ∈ part, isQuote c = false) (hp : ∀ c ∈ p, isQuote c = false) :
    hasAliasRef false (aliasImportStmt true part p) = false := by
  unfold aliasImportStmt stmtTail
  rw [hasAliasRef_append_quotefree false _ (by decide),
    hasAliasRef_cons_of_not_quote false _ (by decide),
    hasAliasRef_append_quotefree false _ hpart,
    hasAliasRef_cons_of_not_quote false _ (by decide),
    hasAliasRef_append_quotefree false _ (by decide),
    hasAliasRef_cons_of_not_quote false _ (by decide),
    hasAliasRef_cons]
  rw [show (aliasLit true) ++ (p ++ ['"'])
      = '/' :: ("controllers/".data ++ (p ++ ['"'])) from rfl]
  rw [bare_isPrefixOf_head _ (by decide)]
  simp only [Bool.and_false, Bool.false_or]
  rw [hasAliasRef_cons_of_not_quote false _ (by decide),
    hasAliasRef_append_quotefree false _ (by decide),
    hasAliasRef_append_quotefree false _ hp]
  exact hasAliasRef_single_dquote false

theorem transformChars_of_no_alias {cs : List Char}
    (h1 : hasAliasRef false cs = false) (h2 : hasAliasRef true cs = false) :
    transformChars cs = cs := by
  unfold transformChars
  rw [replaceAll_of_no_alias h1, replaceAll_of_no_alias h2]

theorem transformChars_stmt_bare {part p : List Char} {d0 : Char} {part2 : List Char}
    (hpart : part = d0 :: part2) (hd0 : isJsSpace d0 = false)
    (hclause : matchImportClause (part ++ stmtTail false p)
      = some (part, stmtTail false p))
    (hpartq : ∀ c ∈ part, isQuote c = false)
    (hp : p ≠ []) (hpq : ∀ c ∈ p, isQuote c = false) :
    transformChars (aliasImportStmt false part p) = importReplacement part p := by
  unfold transformChars
  rw [replaceAll_of_match (matchImport_stmt hpart hd0 hclause hp hpq),
    replaceAll_nil, List.append_nil]
  exact replaceAll_of_no_alias (hasAliasRef_importReplacement true hpartq hpq)

theorem transformChars_stmt_rooted {part p : List Char} {d0 : Char} {part2 : List Char}
    (hpart : part = d0 :: part2) (hd0 : isJsSpace d0 = false)
    (hclause : matchImportClause (part ++ stmtTail true p)
      = some (part, stmtTail true p))
    (hpartq : ∀ c ∈ part, isQuote c = false)
    (hp : p ≠ []) (hpq : ∀ c ∈ p, isQuote c = false) :
    transformChars (aliasImportStmt true part p) = importReplacement part p := by
  unfold transformChars
  rw [replaceAll_of_no_alias (hasAliasRef_bare_of_rootedStmt hpartq hpq),
    replaceAll_of_match (matchImport_stmt hpart hd0 hclause hp hpq),
    replaceAll_nil, List.append_nil]

/-- C4, as amended after `alias_rewrite_truncates_quoted_path`: on a
canonical import statement whose path segment contains no quote character,
the rewrite maps both the bare and the rooted alias form to the `./`
relative form, preserving the captured default-import identifier (any
non-empty word-character run) or named-import brace list (any non-empty
brace-free, quote-free run) verbatim; content with no quote-adjacent alias
occurrence — in particular any import whose source path does not match the
alias prefix — is left unchanged; and the concrete
`import Hello from "controllers/hello_controller"` example rewrites as
specified.  The unamended universal claim is false: a quote character in
the path truncates the statement (the counterexample above), and in
composite content an alias import overlapped by an earlier greedy match is
spliced rather than rewritten (see `cexContent`). -/
theorem alias_rewrite_correct :
    (∀ i p : List Char, i ≠ [] → (∀ c ∈ i, isWordChar c = true) → p ≠ [] →
      (∀ c ∈ p, isQuote c = false) →
      transformChars (aliasImportStmt false i p) = importReplacement i p
      ∧ transformChars (aliasImportStmt true i p) = importReplacement i p)
    ∧ (∀ inner p : List Char, inner ≠ [] → (∀ c ∈ inner, (c == '}') = false) →
      (∀ c ∈ inner, isQuote c = false) → p ≠ [] → (∀ c ∈ p, isQuote c = false) →
      transformChars (aliasImportStmt false ('{' :: (inner ++ ['}'])) p)
        = importReplacement ('{' :: (inner ++ ['}'])) p
      ∧ transformChars (aliasImportStmt true ('{' :: (inner ++ ['}'])) p)
        = importReplacement ('{' :: (inner ++ ['}'])) p)
    ∧ (∀ cs : List Char, hasAliasRef false cs = false → hasAliasRef true cs = false →
        transformChars cs = cs)
    ∧ transformContent "import Hello from \"controllers/hello_controller\""
        = "import Hello from \"./hello_controller\"" := by
  refine ⟨?_, ?_, fun cs h1 h2 => transformChars_of_no_alias h1 h2, by decide⟩
  · intro i p hne hiw hp hpq
    obtain ⟨c, i2, rfl⟩ := List.exists_cons_of_ne_nil hne
    have hd0 : isJsSpace c = false := isJsSpace_false_of_word (hiw c (by simp))
    have hpartq : ∀ x ∈ c :: i2, isQuote x = false :=
      fun x hx => isQuote_false_of_word (hiw x hx)
    constructor
    · exact transformChars_stmt_bare rfl hd0
        (matchImportClause_word _ hne hiw
          (fun x hx => by simp [stmtTail] at hx; subst hx; decide))
        hpartq hp hpq
    · exact transformChars_stmt_rooted rfl hd0
        (matchImportClause_word _ hne hiw
          (fun x hx => by simp [stmtTail] at hx; subst hx; decide))
        hpartq hp hpq
  · intro inner p hne hinner hinnerq hp hpq
    have hpartq : ∀ x ∈ '{' :: (inner ++ ['}']), isQuote x = false := by
      intro x hx
      rcases List.mem_cons.mp hx with rfl | hx2
      · decide
      rcases List.mem_append.mp hx2 with hx3 | hx3
      · exact hinnerq x hx3
      · simp at hx3
        subst hx3
        decide
    constructor
    · exact transformChars_stmt_bare rfl (by decide)
        (matchImportClause_braces _ hne hinner) hpartq hp hpq
    · exact transformChars_stmt_rooted rfl (by decide)
        (matchImportClause_braces _ hne hinner) hpartq hp hpq

/-- Witness for C4: concrete identifier, brace-list, rooted and non-matching
instances (`decide` evaluates the rewrite on each concrete statement). -/
theorem alias_rewrite_correct_witness :
    transformChars (aliasImportStmt false "Hello".data "hello_controller".data)
      = importReplacement "Hello".data "hello_controller".data
    ∧ transformChars (aliasImportStmt true "X".data "y".data)
      = importReplacement "X".data "y".data
    ∧ transformChars (aliasImportStmt false ('{' :: ("a, b".data ++ ['}'])) "multi".data)
      = importReplacement ('{' :: ("a, b".data ++ ['}'])) "multi".data
    ∧ transformChars "import X from \"./already\"".data
      = "import X from \"./already\"".data := by
  obtain ⟨h1, h2, h3, -⟩ := alias_rewrite_correct
  exact ⟨(h1 "Hello".data "hello_controller".data (by decide) (by decide) (by decide)
            (by decide)).1,
         (h1 "X".data "y".data (by decide) (by decide) (by decide) (by decide)).2,
         (h2 "a, b".data "multi".data (by decide) (by decide) (by decide) (by decide)
            (by decide)).1,
         h3 "import X from \"./already\"".data (by decide) (by decide)⟩

/-- C4 counterexample: the rewrite does not handle every import statement
whose source path begins with the alias prefix — a path containing a quote
character is truncated at it.  The `[^"']+` capture stops at the apostrophe
and the permissive closing `["']` consumes it, so the `controllers/it's`
path yields `./it` followed by the stray remainder `s"`, not `./it's` as
the claim requires. -/
theorem alias_rewrite_truncates_quoted_path :
    transformContent "import A from \"controllers/it's\""
      = "import A from \"./it\"s\""
    ∧ transformContent "import A from \"controllers/it's\""
      ≠ "import A from \"./it's\"" :=
  ⟨by decide, by decide⟩

/-- Content on which the rewrite is not idempotent: the greedy `[^"']+`
path capture of the double-quoted bare alias import ends at the single
quote, so the first pass emits `import A from "./ximport B from "` and
leaves `controllers/y'"` behind; the juxtaposition forms a new bare
alias-import occurrence (`import B from "controllers/y'`) that only a
second pass rewrites. -/
def cexContent : String :=
  "import A from \"controllers/ximport B from 'controllers/y'\""

/-- The counterexample content on disk, mid-workflow. -/
def cexState : SState :=
  { fs := [(demoIndexPath, cexContent)], backups := [], writes := [] }

/-- C5 counterexample: the rewrite is not idempotent as stated — on
`cexContent` the second application changes the first application's output
again, and a second `prepareIndexFileForParsing` pass over the rewritten
file performs a second disk write. -/
theorem alias_rewrite_not_idempotent :
    transformContent (transformContent cexContent) ≠ transformContent cexContent
    ∧ transformContent cexContent
        = "import A from \"./ximport B from \"controllers/y'\""
    ∧ (prepareIndexFileForParsing demoRoot
        (prepareIndexFileForParsing demoRoot cexState)).writes.length = 2 :=
  ⟨by decide, by decide, by decide⟩

/-- C5 amended: on content with no remaining quote-adjacent alias reference
the rewrite is the identity (so a second application changes nothing), and
a prepare pass over a file whose content the rewrite leaves unchanged
performs no disk write and does not touch the file system. -/
theorem alias_rewrite_second_pass_noop_on_alias_free :
    (∀ cs : List Char, hasAliasRef false cs = false → hasAliasRef true cs = false →
      transformChars cs = cs ∧ transformChars (transformChars cs) = transformChars cs)
    ∧ (∀ (st : SState) (p content : String), alookup p st.fs = some content →
        transformContent content = content →
        (prepareStep st p).fs = st.fs ∧ (prepareStep st p).writes = st.writes) := by
  constructor
  · intro cs h1 h2
    have hfix : transformChars cs = cs := transformChars_of_no_alias h1 h2
    exact ⟨hfix, by rw [hfix, hfix]⟩
  · intro st p content hfs hfixed
    constructor <;>
      by_cases hb : (alookup p st.backups).isSome = true <;>
        simp [prepareStep, hfs, hb, hfixed, writeFile]

/-- A state whose file content is already in relative form. -/
def fixedState : SState :=
  { fs := [("/p", "import X from \"./x\"")], backups := [], writes := [] }

/-- Witness for C5's amended statement at concrete relative-form content. -/
theorem alias_rewrite_second_pass_noop_witness :
    transformChars "import X from \"./x\"".data = "import X from \"./x\"".data
    ∧ (prepareStep fixedState "/p").fs = fixedState.fs
    ∧ (prepareStep fixedState "/p").writes = fixedState.writes := by
  obtain ⟨h1, h2⟩ := alias_rewrite_second_pass_noop_on_alias_free
  refine ⟨(h1 "import X from \"./x\"".data (by decide) (by decide)).1, ?_, ?_⟩
  · exact (h2 fixedState "/p" "import X from \"./x\"" (by decide) (by decide)).1
  · exact (h2 fixedState "/p" "import X from \"./x\"" (by decide) (by decide)).2

end StimulusLsp
